import Mathlib

/-!
Verification of the StudyPal backend's ingestion and retrieval core.

The definitions below are a shallow embedding of
`StudyPal/backend/utils.py` (`split_text`, whitespace tokenization) and
`StudyPal/backend/rag.py` (`RAGSystem.ingest_document`,
`RAGSystem.query`).  Strings are modelled as `List Char`; Python lists
as Lean lists; the external collaborators (vector store, LLM) are
modelled from their contracts, with explicit outcome parameters where
the Python code can observe an exception.
-/

namespace StudyPal

/-- The whitespace characters recognised by Python `str.split()` on
ASCII text: space, tab, newline, carriage return, vertical tab, form feed. -/
def pyIsSpace (c : Char) : Bool :=
  c = ' ' || c = '\t' || c = '\n' || c = '\r' || c = Char.ofNat 11 || c = Char.ofNat 12

/-- Accumulator pass of `text.split()`: `acc` holds the characters of the
word currently being read, reversed.  Runs of whitespace produce no
empty tokens, matching Python `str.split()` with no separator argument. -/
def wordsAux : List Char → List Char → List (List Char)
  | [], acc => if acc.isEmpty then [] else [acc.reverse]
  | c :: rest, acc =>
    if pyIsSpace c then
      if acc.isEmpty then wordsAux rest [] else acc.reverse :: wordsAux rest []
    else wordsAux rest (c :: acc)

/-- Python `text.split()`: the list of maximal whitespace-free tokens. -/
def pyWords (s : List Char) : List (List Char) := wordsAux s []

/-- Python `" ".join(ws)`. -/
def joinWords : List (List Char) → List Char
  | [] => []
  | [w] => w
  | w :: ws => w ++ ' ' :: joinWords ws

/-- `sum(len(w) + 1 for w in ws)` — the running length bookkeeping of
`split_text`. -/
def sumLen (ws : List (List Char)) : Nat := (ws.map (fun w => w.length + 1)).sum

/-- Python `ws[-k:]`.  For `k = 0` Python returns the whole list
(`ws[-0:] = ws[0:]`), otherwise the last `min k (length ws)` elements. -/
def pySliceLast (k : Nat) (ws : List (List Char)) : List (List Char) :=
  if k = 0 then ws else ws.drop (ws.length - k)

/-- The word-accumulation loop of `utils.split_text`.  Each closed chunk
is emitted as its list of words; the Python code joins a chunk with
single spaces at the moment it is appended (`" ".join(current_chunk)`),
which `split_text` below performs with one final `map joinWords` —
nothing else ever touches an emitted chunk. -/
def splitLoop (chunkSize overlap : Nat) :
    List (List Char) → List (List Char) → Nat → List (List (List Char))
  | [], cur, _ => if cur.isEmpty then [] else [cur]
  | w :: ws, cur, curLen =>
    if curLen + w.length + 1 ≤ chunkSize then
      splitLoop chunkSize overlap ws (cur ++ [w]) (curLen + w.length + 1)
    else
      cur :: splitLoop chunkSize overlap ws (pySliceLast overlap cur ++ [w])
        (sumLen (pySliceLast overlap cur ++ [w]))

/-- The chunks of `utils.split_text`, kept as word lists. -/
def splitWordChunks (text : List Char) (chunk_size : Nat := 1000)
    (chunk_overlap : Nat := 200) : List (List (List Char)) :=
  splitLoop chunk_size chunk_overlap (pyWords text) [] 0

/-- `utils.split_text(text, chunk_size=1000, chunk_overlap=200)`. -/
def split_text (text : List Char) (chunk_size : Nat := 1000)
    (chunk_overlap : Nat := 200) : List (List Char) :=
  (splitWordChunks text chunk_size chunk_overlap).map joinWords

/-! ### Lemmas about the tokenizer and the chunk loop -/
theorem sumLen_nil : sumLen [] = 0 := rfl

theorem sumLen_cons (w : List Char) (ws : List (List Char)) :
    sumLen (w :: ws) = w.length + 1 + sumLen ws := by
  simp [sumLen]

theorem sumLen_append (a b : List (List Char)) :
    sumLen (a ++ b) = sumLen a + sumLen b := by
  simp [sumLen]

/-- The bookkeeping total of the words of a text is bounded by the text's
length plus one: each word costs its characters plus one separator, and
words are separated in the text by at least one whitespace character. -/
theorem wordsAux_sumLen : ∀ (s acc : List Char),
    sumLen (wordsAux s acc) ≤ s.length + acc.length + 1 := by
  intro s
  induction s with
  | nil =>
    intro acc
    by_cases h : acc.isEmpty <;> simp [wordsAux, h, sumLen]
  | cons c rest ih =>
    intro acc
    rw [wordsAux]
    by_cases hc : pyIsSpace c
    · rw [if_pos hc]
      by_cases ha : acc.isEmpty
      · rw [if_pos ha]
        have := ih []
        simp only [List.length_cons, List.length_nil] at *
        omega
      · rw [if_neg ha]
        rw [sumLen_cons]
        have := ih []
        simp only [List.length_reverse, List.length_cons, List.length_nil] at *
        omega
    · rw [if_neg hc]
      have := ih (c :: acc)
      simp only [List.length_cons] at *
      omega

/-- A loop started with a non-empty current chunk emits at least one chunk. -/
theorem splitLoop_ne_nil (cs ov : Nat) : ∀ (ws cur : List (List Char)) (len : Nat),
    cur ≠ [] → splitLoop cs ov ws cur len ≠ [] := by
  intro ws
  induction ws with
  | nil =>
    intro cur len h
    simp [splitLoop, h]
  | cons w ws ih =>
    intro cur len h
    rw [splitLoop]
    split
    · exact ih _ _ (by simp)
    · simp

/-- The first chunk the loop emits extends the chunk it was started with:
words are only ever appended at the tail. -/
theorem splitLoop_head_decomp (cs ov : Nat) : ∀ (ws cur : List (List Char)) (len : Nat),
    cur ≠ [] → ∃ rest t, splitLoop cs ov ws cur len = (cur ++ rest) :: t := by
  intro ws
  induction ws with
  | nil =>
    intro cur len h
    refine ⟨[], [], ?_⟩
    simp [splitLoop, h]
  | cons w ws ih =>
    intro cur len h
    rw [splitLoop]
    split
    · obtain ⟨rest, t, ht⟩ := ih (cur ++ [w]) (len + w.length + 1) (by simp)
      exact ⟨[w] ++ rest, t, by simpa using ht⟩
    · exact ⟨[], splitLoop cs ov ws (pySliceLast ov cur ++ [w])
        (sumLen (pySliceLast ov cur ++ [w])), by simp⟩

/-- Consecutive chunks of the loop: each chunk after the first starts
with the `overlap`-slice of its predecessor. -/
theorem splitLoop_chained (cs ov : Nat) : ∀ (ws cur : List (List Char)) (len i : Nat)
    (a b : List (List Char)),
    (splitLoop cs ov ws cur len)[i]? = some a →
    (splitLoop cs ov ws cur len)[i + 1]? = some b →
    ∃ rest, b = pySliceLast ov a ++ rest := by
  intro ws
  induction ws with
  | nil =>
    intro cur len i a b _ hb
    by_cases h : cur.isEmpty <;> simp [splitLoop, h] at hb
  | cons w ws ih =>
    intro cur len i a b ha hb
    rw [splitLoop] at ha hb
    by_cases hfit : len + w.length + 1 ≤ cs
    · rw [if_pos hfit] at ha hb
      exact ih _ _ i a b ha hb
    · rw [if_neg hfit] at ha hb
      match i with
      | 0 =>
        simp only [List.getElem?_cons_zero, Option.some.injEq] at ha
        simp only [List.getElem?_cons_succ] at hb
        obtain ⟨rest, t, ht⟩ := splitLoop_head_decomp cs ov ws
          (pySliceLast ov cur ++ [w]) (sumLen (pySliceLast ov cur ++ [w])) (by simp)
        rw [ht] at hb
        simp only [List.getElem?_cons_zero, Option.some.injEq] at hb
        exact ⟨[w] ++ rest, by simp [← hb, ← ha]⟩
      | i + 1 =>
        simp only [List.getElem?_cons_succ] at ha hb
        exact ih _ _ i a b ha hb

/-- Joining a concatenation of word lists extends the join of the first
part: a chunk that starts with given words, as a word list, starts with
their join, as a string. -/
theorem joinWords_append_decomp : ∀ (a b : List (List Char)),
    ∃ r, joinWords (a ++ b) = joinWords a ++ r := by
  intro a
  induction a with
  | nil => intro b; exact ⟨joinWords b, by simp [joinWords]⟩
  | cons x a ih =>
    intro b
    match a, b with
    | [], [] => exact ⟨[], by simp [joinWords]⟩
    | [], y :: b => exact ⟨' ' :: joinWords (y :: b), by simp [joinWords]⟩
    | z :: a, b =>
      obtain ⟨r, hr⟩ := ih b
      refine ⟨r, ?_⟩
      have h1 : joinWords ((x :: z :: a) ++ b) = x ++ ' ' :: joinWords ((z :: a) ++ b) := by
        simp only [List.cons_append]
        rfl
      have h2 : joinWords (x :: z :: a) = x ++ ' ' :: joinWords (z :: a) := rfl
      rw [h1, hr, h2]
      simp

/-- The length of a joined non-empty chunk is its bookkeeping total minus
one (`n` words joined by `n - 1` single spaces). -/
theorem joinWords_length : ∀ (ws : List (List Char)), ws ≠ [] →
    (joinWords ws).length + 1 = sumLen ws := by
  intro ws
  induction ws with
  | nil => intro h; exact absurd rfl h
  | cons w ws ih =>
    intro _
    match ws with
    | [] => simp [joinWords, sumLen]
    | y :: ws =>
      have hy := ih (by simp)
      have h2 : joinWords (w :: y :: ws) = w ++ ' ' :: joinWords (y :: ws) := rfl
      rw [h2, sumLen_cons]
      simp only [List.length_append, List.length_cons]
      omega

/-- When every remaining word still fits in the budget, the loop emits a
single chunk containing everything (or nothing if there are no words). -/
theorem splitLoop_all_fit (cs ov : Nat) : ∀ (ws cur : List (List Char)),
    sumLen cur + sumLen ws ≤ cs →
    splitLoop cs ov ws cur (sumLen cur) =
      if (cur ++ ws).isEmpty then [] else [cur ++ ws] := by
  intro ws
  induction ws with
  | nil => intro cur _; simp [splitLoop]
  | cons w ws ih =>
    intro cur hle
    rw [sumLen_cons] at hle
    have hw : sumLen cur + w.length + 1 ≤ cs := by omega
    rw [splitLoop, if_pos hw]
    have hcur : sumLen (cur ++ [w]) = sumLen cur + w.length + 1 := by
      rw [sumLen_append, sumLen_cons, sumLen_nil]; omega
    have hrest : sumLen (cur ++ [w]) + sumLen ws ≤ cs := by
      rw [hcur]; omega
    have := ih (cur ++ [w]) hrest
    rw [hcur] at this
    rw [this]
    simp

/-- The head chunk of the loop obeys the bookkeeping budget, provided the
starting chunk does: the head chunk is the first one closed, and it was
grown by the budget check alone. -/
theorem splitLoop_head_sumLen (cs ov : Nat) : ∀ (ws cur : List (List Char)),
    sumLen cur ≤ cs → ∀ wc, (splitLoop cs ov ws cur (sumLen cur)).head? = some wc →
    sumLen wc ≤ cs := by
  intro ws
  induction ws with
  | nil =>
    intro cur hle wc hwc
    by_cases h : cur.isEmpty <;> simp [splitLoop, h] at hwc
    exact hwc ▸ hle
  | cons w ws ih =>
    intro cur hle wc hwc
    rw [splitLoop] at hwc
    by_cases hfit : sumLen cur + w.length + 1 ≤ cs
    · rw [if_pos hfit] at hwc
      have hcur : sumLen (cur ++ [w]) = sumLen cur + w.length + 1 := by
        rw [sumLen_append, sumLen_cons, sumLen_nil]; omega
      exact ih (cur ++ [w]) (hcur ▸ hfit) wc (by rw [hcur]; exact hwc)
    · rw [if_neg hfit] at hwc
      simp only [List.head?_cons, Option.some.injEq] at hwc
      exact hwc ▸ hle

/-! ### Claim theorems about the Chunker -/

/-- C2: whenever `split_text` produces at least two chunks, each chunk
after the first begins with the last `chunk_overlap` words of its
predecessor, and when the predecessor holds fewer than `chunk_overlap`
words the overlap silently shrinks to all of the predecessor's words
(`List.drop (length - ov)` keeps the whole list in that case); this holds
for every positive overlap, in particular for the default 200 with the
default chunk size 1000.  Stated both on the word-list chunks and on the
joined string chunks of `split_text`. -/
theorem split_text_overlap (text : List Char) (cs ov : Nat) (hov : 0 < ov)
    (i : Nat) (a b : List (List Char))
    (ha : (splitWordChunks text cs ov)[i]? = some a)
    (hb : (splitWordChunks text cs ov)[i + 1]? = some b) :
    (∃ rest, b = a.drop (a.length - ov) ++ rest)
    ∧ (split_text text cs ov)[i + 1]? = some (joinWords b)
    ∧ ∃ r, joinWords b = joinWords (a.drop (a.length - ov)) ++ r := by
  have hslice : pySliceLast ov a = a.drop (a.length - ov) := by
    unfold pySliceLast
    rw [if_neg (Nat.pos_iff_ne_zero.mp hov)]
  obtain ⟨rest, hrest⟩ := splitLoop_chained cs ov (pyWords text) [] 0 i a b ha hb
  refine ⟨⟨rest, hslice ▸ hrest⟩, ?_, ?_⟩
  · unfold split_text
    rw [List.getElem?_map, hb]
    rfl
  · obtain ⟨r, hr⟩ := joinWords_append_decomp (pySliceLast ov a) rest
    refine ⟨r, ?_⟩
    rw [hrest, hr, hslice]

theorem split_text_overlap_witness :
    (∃ rest, ([['a','a'],['b','b']] : List (List Char))
        = [['a','a']].drop ([['a','a']].length - 1) ++ rest)
    ∧ (split_text "aa bb cc".toList 5 1)[0 + 1]? = some (joinWords [['a','a'],['b','b']])
    ∧ ∃ r, joinWords [['a','a'],['b','b']]
        = joinWords (([['a','a']] : List (List Char)).drop ([['a','a']].length - 1)) ++ r :=
  split_text_overlap "aa bb cc".toList 5 1 (by decide) 0 [['a','a']]
    [['a','a'],['b','b']] (by decide) (by decide)

set_option maxRecDepth 100000 in
/-- C3 counterexample: on a text consisting of one 1001-character word,
`split_text` with the default budget 1000 returns a chunk of length
1001, so not every chunk stays within the chunk-size budget. -/
theorem split_text_budget_counterexample :
    ¬ (∀ c ∈ split_text (List.replicate 1001 'b') 1000 200, c.length ≤ 1000) := by
  decide

/-- C3 amended: only the FIRST chunk `split_text` returns is guaranteed to
stay within the chunk-size budget; a later chunk is seeded with the
overlap words plus the overflowing word without a budget check and may
exceed the budget. -/
theorem split_text_first_chunk_within_budget (text : List Char) (cs ov : Nat)
    (c : List Char) (hc : (split_text text cs ov).head? = some c) :
    c.length ≤ cs := by
  unfold split_text at hc
  rw [List.head?_map] at hc
  cases hh : (splitWordChunks text cs ov).head? with
  | none => rw [hh] at hc; simp at hc
  | some wc =>
    rw [hh] at hc
    simp only [Option.map_some', Option.some.injEq] at hc
    have hsum : sumLen wc ≤ cs :=
      splitLoop_head_sumLen cs ov (pyWords text) [] (by simp [sumLen]) wc hh
    by_cases hwc : wc = []
    · subst hwc
      rw [← hc]
      simp [joinWords]
    · have := joinWords_length wc hwc
      rw [← hc]
      omega

theorem split_text_first_chunk_within_budget_witness :
    (['a','b'] : List Char).length ≤ 1000 :=
  split_text_first_chunk_within_budget ['a','b'] 1000 200 ['a','b'] (by decide)

/-- C4 counterexample: the empty text is shorter than the budget, yet
`split_text` returns no chunk at all instead of exactly one. -/
theorem split_text_single_chunk_counterexample :
    ([] : List Char).length < 1000
    ∧ (split_text ([] : List Char) 1000 200).length ≠ 1 := by
  decide

/-- C4 amended: for any text shorter than the chunk-size budget that
contains at least one whitespace token, `split_text` returns exactly one
chunk, equal to the whitespace-normalized input (its whitespace-separated
words joined by single spaces); a text with no tokens yields no chunks. -/
theorem split_text_single_chunk (text : List Char) (cs ov : Nat)
    (hlen : text.length < cs) (hne : pyWords text ≠ []) :
    split_text text cs ov = [joinWords (pyWords text)] := by
  have hb : sumLen (pyWords text) ≤ cs := by
    have h := wordsAux_sumLen text []
    unfold pyWords
    simp only [List.length_nil] at h
    omega
  unfold split_text splitWordChunks
  have h := splitLoop_all_fit cs ov (pyWords text) [] (by rw [sumLen_nil]; omega)
  rw [sumLen_nil] at h
  rw [h]
  simp [hne]

theorem split_text_single_chunk_witness :
    split_text ['a','b',' ','c'] 1000 200 = [joinWords (pyWords ['a','b',' ','c'])] :=
  split_text_single_chunk ['a','b',' ','c'] 1000 200 (by decide) (by decide)

/-- C9: if the first whitespace token of the input has length at least the
chunk-size budget, the first chunk `split_text` emits is the empty
string — chunks are not guaranteed to be non-empty. -/
theorem split_text_empty_first_chunk (text : List Char) (cs ov : Nat)
    (w : List Char) (ws : List (List Char)) (hw : pyWords text = w :: ws)
    (hlen : cs ≤ w.length) :
    (split_text text cs ov).head? = some [] := by
  unfold split_text splitWordChunks
  rw [hw, splitLoop, if_neg (by omega)]
  simp [joinWords]

theorem split_text_empty_first_chunk_witness :
    (split_text ['a','b','c','d'] 3 2).head? = some [] :=
  split_text_empty_first_chunk ['a','b','c','d'] 3 2 ['a','b','c','d'] []
    (by decide) (by decide)

/-! ### Embedding of rag.py: metadata, chunk store, ingestion, query -/

/-- The metadata record built by `main.upload_document` and attached to
every chunk of a document: `{user_id, semester, subject, title}`. -/
structure ChunkMeta where
  user_id : Nat
  semester : Nat
  subject : List Char
  title : List Char
deriving DecidableEq

/-- One row of the persistent chunk store: identifier, chunk text and
metadata (the embedding vector is irrelevant to the claims and is
abstracted into the similarity scoring of retrieval). -/
structure StoreEntry where
  id : List Char
  text : List Char
  meta : ChunkMeta
deriving DecidableEq

/-- The character of a decimal digit. -/
def digitChar (d : Nat) : Char :=
  match d with
  | 0 => '0' | 1 => '1' | 2 => '2' | 3 => '3' | 4 => '4'
  | 5 => '5' | 6 => '6' | 7 => '7' | 8 => '8' | _ => '9'

/-- Little-endian base-10 digits, with explicit fuel for structural
recursion (fuel `n` suffices for the number `n`). -/
def natDigitsAux : Nat → Nat → List Nat
  | 0, _ => []
  | fuel + 1, n => if n = 0 then [] else n % 10 :: natDigitsAux fuel (n / 10)

/-- Little-endian base-10 digits of a natural number. -/
def natDigits (n : Nat) : List Nat := natDigitsAux n n

/-- Python `str(n)` for a non-negative integer: its decimal rendering. -/
def natToChars (n : Nat) : List Char :=
  if n = 0 then ['0'] else ((natDigits n).map digitChar).reverse

/-- `os.path.basename`: the part of the path after the last `'/'`. -/
def basename (p : List Char) : List Char :=
  (p.reverse.takeWhile (fun c => c ≠ '/')).reverse

/-- The chunk identifier built by `RAGSystem.ingest_document`:
`f"{metadata['user_id']}_{metadata['semester']}_{metadata['subject']}_{os.path.basename(file_path)}_{i}"`. -/
def docId (user_id semester : Nat) (subject base : List Char) (i : Nat) : List Char :=
  natToChars user_id ++ ('_' :: (natToChars semester ++ ('_' :: (subject ++
    ('_' :: (base ++ ('_' :: natToChars i)))))))

/-- The per-chunk loop of `ingest_document`: for each chunk (by index) one
store row carrying the chunk text, the shared metadata record, and the
deterministic identifier. -/
def ingestEntries (meta : ChunkMeta) (file_path : List Char) (text : List Char) :
    List StoreEntry :=
  (split_text text 1000 200).enum.map
    (fun p => { id := docId meta.user_id meta.semester meta.subject
                  (basename file_path) p.1,
                text := p.2, meta := meta })

/-- `RAGSystem.ingest_document(file_path, metadata)`.  The two fallible
collaborators are explicit parameters: `extractResult` is the outcome of
`extract_text_from_file` (`.error` = the extraction raised), and
`addOutcome` is the outcome of the single `vector_store.add_texts` batch
call, modelled from the spec's Chunk Store contract (that code is outside
this repository): `none` = the batch write succeeds in full, `some k` =
it raises after `k` rows were persisted.  The `try/except` of the Python
code catches either failure and returns `False`; nothing is rolled back. -/
def ingest_document (extractResult : Except Unit (List Char)) (meta : ChunkMeta)
    (file_path : List Char) (addOutcome : Option Nat) (store : List StoreEntry) :
    Bool × List StoreEntry :=
  match extractResult with
  | .error _ => (false, store)
  | .ok text =>
    match addOutcome with
    | none => (true, store ++ ingestEntries meta file_path text)
    | some k => (false, store ++ (ingestEntries meta file_path text).take k)

/-- The metadata filter dictionary of `RAGSystem.query`: `user_id` is
always present; `semester` and `subject` only when their argument is
truthy in Python (`None` and `0` / the empty string are falsy). -/
structure QueryFilter where
  user_id : Nat
  semester : Option Nat
  subject : Option (List Char)
deriving DecidableEq

/-- The filter construction of `RAGSystem.query` (rag.py lines 76-80). -/
def buildFilter (user_id : Nat) (semester : Option Nat)
    (subject : Option (List Char)) : QueryFilter :=
  { user_id := user_id
    semester := match semester with
      | some s => if s ≠ 0 then some s else none
      | none => none
    subject := match subject with
      | some t => if t ≠ [] then some t else none
      | none => none }

/-- Exact-match metadata predicate of the Chunk Store.  Modelled from the
spec: the store (chromadb, outside this repository) restricts retrieval
to chunks whose metadata matches every key present in the filter. -/
def matchesFilter (f : QueryFilter) (m : ChunkMeta) : Bool :=
  (m.user_id = f.user_id)
  && (match f.semester with | none => true | some s => m.semester = s)
  && (match f.subject with | none => true | some t => m.subject = t)

/-- Modelled from the spec: the Chunk Store collaborator's filtered
nearest-neighbour retrieval (chromadb/langchain, outside this
repository) — the `k` chunks most similar to the query among those whose
metadata matches the filter, the similarity ranking abstracted as a
scoring function `score`. -/
def retrieve (store : List StoreEntry) (score : StoreEntry → Nat)
    (f : QueryFilter) (k : Nat) : List StoreEntry :=
  ((store.filter (fun e => matchesFilter f e.meta)).insertionSort
    (fun a b => score b ≤ score a)).take k

/-- The fixed fallback answer of `RAGSystem.query`. -/
def fallbackAnswer : List Char :=
  "Sorry, I encountered an error processing your request.".toList

/-- The result dictionary of `RAGSystem.query`. -/
structure QueryResult where
  answer : List Char
  sources : List (List Char)
deriving DecidableEq

/-- `RAGSystem.query(question, user_id, semester, subject)`.  The
similarity scoring of the store and the generative model are the two
external collaborators: `sim question` ranks store entries for the
question's embedding, and `genOutcome` is the outcome of running the QA
chain (`.ok answer` = the LLM answered; `.error` = any exception raised
inside the `try` block, during retrieval or generation).  On success the
sources are the deduplicated titles (`list(set(...))`, modelled as
`List.dedup`) of the `k = 4` retrieved chunks; on failure the fixed
fallback answer is returned with no sources. -/
def query (store : List StoreEntry) (sim : List Char → StoreEntry → Nat)
    (genOutcome : Except Unit (List Char)) (question : List Char)
    (user_id : Nat) (semester : Option Nat) (subject : Option (List Char)) :
    QueryResult :=
  match genOutcome with
  | .error _ => { answer := fallbackAnswer, sources := [] }
  | .ok ans =>
    let docs := retrieve store (sim question) (buildFilter user_id semester subject) 4
    { answer := ans, sources := (docs.map (fun e => e.meta.title)).dedup }

/-! ### Lemmas about decimal identifiers -/

/-- Value of a little-endian digit list in base 10. -/
def fromDigits : List Nat → Nat
  | [] => 0
  | d :: ds => d + 10 * fromDigits ds

theorem natDigitsAux_fromDigits : ∀ (fuel n : Nat), n ≤ fuel →
    fromDigits (natDigitsAux fuel n) = n := by
  intro fuel
  induction fuel with
  | zero =>
    intro n h
    have hn : n = 0 := Nat.le_zero.mp h
    subst hn
    rfl
  | succ fuel ih =>
    intro n h
    rw [natDigitsAux]
    by_cases hn : n = 0
    · subst hn; rfl
    · rw [if_neg hn, fromDigits]
      have hdiv : n / 10 ≤ fuel := by
        have := Nat.div_lt_self (Nat.pos_of_ne_zero hn) (by omega : 1 < 10)
        omega
      rw [ih (n / 10) hdiv]
      exact Nat.mod_add_div n 10

theorem natDigits_fromDigits (n : Nat) : fromDigits (natDigits n) = n :=
  natDigitsAux_fromDigits n n (Nat.le_refl n)

theorem natDigitsAux_lt_ten : ∀ (fuel n d : Nat), d ∈ natDigitsAux fuel n → d < 10 := by
  intro fuel
  induction fuel with
  | zero => intro n d h; simp [natDigitsAux] at h
  | succ fuel ih =>
    intro n d h
    rw [natDigitsAux] at h
    by_cases hn : n = 0
    · rw [if_pos hn] at h; simp at h
    · rw [if_neg hn] at h
      rcases List.mem_cons.mp h with h1 | h2
      · subst h1; exact Nat.mod_lt n (by omega)
      · exact ih _ _ h2

theorem digitChar_inj : ∀ d1 < 10, ∀ d2 < 10, digitChar d1 = digitChar d2 → d1 = d2 := by
  decide

theorem digitChar_ne_underscore (d : Nat) : digitChar d ≠ '_' := by
  unfold digitChar
  split <;> decide

theorem map_digitChar_inj : ∀ (l1 l2 : List Nat), (∀ d ∈ l1, d < 10) →
    (∀ d ∈ l2, d < 10) → l1.map digitChar = l2.map digitChar → l1 = l2 := by
  intro l1
  induction l1 with
  | nil =>
    intro l2 _ _ h
    cases l2 with
    | nil => rfl
    | cons e l2 => simp at h
  | cons d l1 ih =>
    intro l2 h1 h2 h
    cases l2 with
    | nil => simp at h
    | cons e l2 =>
      simp only [List.map_cons, List.cons.injEq] at h
      have hd := digitChar_inj d (h1 d (by simp)) e (h2 e (by simp)) h.1
      rw [hd, ih l2 (fun x hx => h1 x (by simp [hx])) (fun x hx => h2 x (by simp [hx])) h.2]

/-- Decimal rendering is injective: distinct numbers give distinct strings. -/
theorem natToChars_inj : ∀ (m n : Nat), natToChars m = natToChars n → m = n := by
  intro m n h
  unfold natToChars at h
  by_cases hm : m = 0 <;> by_cases hn : n = 0
  · omega
  · exfalso
    rw [if_pos hm, if_neg hn] at h
    have h' : (natDigits n).map digitChar = ['0'] := by
      have := congrArg List.reverse h
      simpa using this.symm
    rcases hl : natDigits n with _ | ⟨d, ds⟩
    · rw [hl] at h'; simp at h'
    · rw [hl] at h'
      simp only [List.map_cons, List.cons.injEq, List.map_eq_nil_iff] at h'
      have hd0 : d = 0 := by
        refine digitChar_inj d ?_ 0 (by omega) (by rw [h'.1]; rfl)
        exact natDigitsAux_lt_ten n n d (by show d ∈ natDigits n; rw [hl]; exact List.mem_cons_self d ds)
      have hn' := natDigits_fromDigits n
      rw [hl, h'.2, hd0] at hn'
      simp [fromDigits] at hn'
      exact hn (hn'.symm)
  · exfalso
    rw [if_neg hm, if_pos hn] at h
    have h' : (natDigits m).map digitChar = ['0'] := by
      have := congrArg List.reverse h
      simpa using this
    rcases hl : natDigits m with _ | ⟨d, ds⟩
    · rw [hl] at h'; simp at h'
    · rw [hl] at h'
      simp only [List.map_cons, List.cons.injEq, List.map_eq_nil_iff] at h'
      have hd0 : d = 0 := by
        refine digitChar_inj d ?_ 0 (by omega) (by rw [h'.1]; rfl)
        exact natDigitsAux_lt_ten m m d (by show d ∈ natDigits m; rw [hl]; exact List.mem_cons_self d ds)
      have hm' := natDigits_fromDigits m
      rw [hl, h'.2, hd0] at hm'
      simp [fromDigits] at hm'
      exact hm (hm'.symm)
  · rw [if_neg hm, if_neg hn] at h
    have h' : (natDigits m).map digitChar = (natDigits n).map digitChar := by
      have := congrArg List.reverse h
      simpa using this
    have hdig := map_digitChar_inj (natDigits m) (natDigits n)
      (fun d hd => natDigitsAux_lt_ten m m d hd)
      (fun d hd => natDigitsAux_lt_ten n n d hd) h'
    have h2 := natDigits_fromDigits m
    rw [hdig, natDigits_fromDigits n] at h2
    exact h2.symm

/-- A decimal rendering never contains an underscore. -/
theorem natToChars_ne_underscore (n : Nat) : ∀ c ∈ natToChars n, c ≠ '_' := by
  intro c hc
  unfold natToChars at hc
  by_cases hn : n = 0
  · rw [if_pos hn] at hc
    simp only [List.mem_singleton] at hc
    subst hc; decide
  · rw [if_neg hn, List.mem_reverse] at hc
    obtain ⟨d, _, hd⟩ := List.mem_map.mp hc
    rw [← hd]
    exact digitChar_ne_underscore d

/-- Two strings that agree and whose parts before the first underscore are
underscore-free decompose identically at that underscore. -/
theorem underscore_split : ∀ (a : List Char), (∀ c ∈ a, c ≠ '_') →
    ∀ (b : List Char), (∀ c ∈ b, c ≠ '_') →
    ∀ (r s : List Char), a ++ '_' :: r = b ++ '_' :: s → a = b ∧ r = s := by
  intro a
  induction a with
  | nil =>
    intro _ b hb r s h
    cases b with
    | nil => simp at h; exact ⟨rfl, h⟩
    | cons c b' =>
      simp only [List.nil_append, List.cons_append, List.cons.injEq] at h
      exact absurd h.1.symm (hb c (by simp))
  | cons c a' ih =>
    intro ha b hb r s h
    cases b with
    | nil =>
      simp only [List.nil_append, List.cons_append, List.cons.injEq] at h
      exact absurd h.1 (ha c (by simp))
    | cons e b' =>
      simp only [List.cons_append, List.cons.injEq] at h
      obtain ⟨h1, h2⟩ := h
      obtain ⟨hab, hrs⟩ := ih (fun x hx => ha x (by simp [hx])) b'
        (fun x hx => hb x (by simp [hx])) r s h2
      exact ⟨by rw [h1, hab], hrs⟩

/-- Within one ingestion call the chunk index makes identifiers distinct. -/
theorem docId_index_inj (u s : Nat) (subj base : List Char) (i j : Nat)
    (h : docId u s subj base i = docId u s subj base j) : i = j := by
  unfold docId at h
  have h1 := (List.cons.inj (List.append_cancel_left h)).2
  have h2 := (List.cons.inj (List.append_cancel_left h1)).2
  have h3 := (List.cons.inj (List.append_cancel_left h2)).2
  have h4 := (List.cons.inj (List.append_cancel_left h3)).2
  exact natToChars_inj i j h4

/-- Identifiers of calls by different owners never coincide: the owner is
the first underscore-free component of the identifier. -/
theorem docId_user_mismatch (u s : Nat) (subj base : List Char) (i : Nat)
    (u' s' : Nat) (subj' base' : List Char) (j : Nat) (hu : u ≠ u') :
    docId u s subj base i ≠ docId u' s' subj' base' j := by
  intro h
  unfold docId at h
  have := underscore_split (natToChars u) (natToChars_ne_underscore u)
    (natToChars u') (natToChars_ne_underscore u') _ _ h
  exact hu (natToChars_inj u u' this.1)

/-! ### Claim theorems about the RAG system -/

/-- C5: the metadata filter of `RAGSystem.query` always carries the user
id; it carries a semester key exactly when the semester argument is
provided and truthy (`0` counts as not provided), and a subject key
exactly when the subject argument is provided and non-empty; with only
the owning-user id set the filter restricts by owner only. -/
theorem query_filter_truthiness (uid : Nat) (sem : Option Nat)
    (subj : Option (List Char)) :
    (buildFilter uid sem subj).user_id = uid
    ∧ (∀ s, (buildFilter uid sem subj).semester = some s ↔ sem = some s ∧ s ≠ 0)
    ∧ (∀ t, (buildFilter uid sem subj).subject = some t ↔ subj = some t ∧ t ≠ [])
    ∧ buildFilter uid none none
        = { user_id := uid, semester := none, subject := none } := by
  refine ⟨rfl, ?_, ?_, rfl⟩
  · intro s
    cases sem with
    | none => simp [buildFilter]
    | some s' =>
      show (if s' ≠ 0 then some s' else none) = some s ↔ some s' = some s ∧ s ≠ 0
      by_cases h : s' = 0
      · subst h
        rw [if_neg (by omega : ¬(0 : Nat) ≠ 0)]
        constructor
        · intro hs; exact Option.noConfusion hs
        · intro ⟨hs, hs0⟩; exact absurd (Option.some.inj hs).symm hs0
      · rw [if_pos h]
        constructor
        · intro hs; exact ⟨hs, by rw [← Option.some.inj hs]; exact h⟩
        · intro ⟨hs, _⟩; exact hs
  · intro t
    cases subj with
    | none => simp [buildFilter]
    | some t' =>
      show (if t' ≠ [] then some t' else none) = some t ↔ some t' = some t ∧ t ≠ []
      by_cases h : t' = []
      · subst h
        rw [if_neg (by simp : ¬([] : List Char) ≠ [])]
        constructor
        · intro hs; exact Option.noConfusion hs
        · intro ⟨hs, hs0⟩; exact absurd (Option.some.inj hs).symm hs0
      · rw [if_pos h]
        constructor
        · intro hs; exact ⟨hs, by rw [← Option.some.inj hs]; exact h⟩
        · intro ⟨hs, _⟩; exact hs

/-- C6: within one ingestion call the i-th chunk's identifier is exactly
the record's user id, semester, subject, the basename of the file path
and the index joined by underscores; all identifiers of the call are
pairwise distinct; and two calls with the same semester, subject and
basename but different owning-user ids share no identifier. -/
theorem ingest_chunk_ids (meta : ChunkMeta) (fp text : List Char) :
    (ingestEntries meta fp text).map (fun e => e.id)
      = (List.range (split_text text 1000 200).length).map
          (docId meta.user_id meta.semester meta.subject (basename fp))
    ∧ ((ingestEntries meta fp text).map (fun e => e.id)).Nodup
    ∧ ∀ (meta' : ChunkMeta) (fp' text' : List Char),
        meta.user_id ≠ meta'.user_id →
        meta.semester = meta'.semester → meta.subject = meta'.subject →
        basename fp = basename fp' →
        ∀ x, x ∈ (ingestEntries meta fp text).map (fun e => e.id) →
          x ∉ (ingestEntries meta' fp' text').map (fun e => e.id) := by
  have hids : ∀ (m : ChunkMeta) (p t : List Char),
      (ingestEntries m p t).map (fun e => e.id)
        = (List.range (split_text t 1000 200).length).map
            (docId m.user_id m.semester m.subject (basename p)) := by
    intro m p t
    unfold ingestEntries
    rw [List.map_map]
    have : ((fun e : StoreEntry => e.id) ∘ (fun q : Nat × List Char =>
        ({ id := docId m.user_id m.semester m.subject (basename p) q.1,
           text := q.2, meta := m } : StoreEntry)))
        = (docId m.user_id m.semester m.subject (basename p)) ∘ Prod.fst := rfl
    rw [this, ← List.map_map, List.enum_map_fst]
  refine ⟨hids meta fp text, ?_, ?_⟩
  · rw [hids meta fp text]
    exact List.Nodup.map
      (fun i j h => docId_index_inj meta.user_id meta.semester meta.subject
        (basename fp) i j h)
      (List.nodup_range _)
  · intro meta' fp' text' hu _ _ _ x hx hx'
    rw [hids meta fp text] at hx
    rw [hids meta' fp' text'] at hx'
    obtain ⟨i, _, hi⟩ := List.mem_map.mp hx
    obtain ⟨j, _, hj⟩ := List.mem_map.mp hx'
    exact docId_user_mismatch meta.user_id meta.semester meta.subject (basename fp) i
      meta'.user_id meta'.semester meta'.subject (basename fp') j hu (by rw [hi, hj])

/-- C7: `ingest_document` is a total function of the collaborator
outcomes — it never raises; it returns `True` exactly when extraction and
the single batch store write both succeed (chunking, a pure computation,
cannot fail); it returns `False`, leaving the store with whatever prefix
of the batch was persisted and never rolling anything back, when either
collaborator raises. -/
theorem ingest_document_result (er : Except Unit (List Char)) (meta : ChunkMeta)
    (fp : List Char) (ao : Option Nat) (store : List StoreEntry) :
    ((ingest_document er meta fp ao store).1 = true ↔ (∃ t, er = .ok t) ∧ ao = none)
    ∧ (∀ e, er = .error e → ingest_document er meta fp ao store = (false, store))
    ∧ (∀ t, er = .ok t → ao = none →
        ingest_document er meta fp ao store = (true, store ++ ingestEntries meta fp t))
    ∧ (∀ t k, er = .ok t → ao = some k →
        ingest_document er meta fp ao store
          = (false, store ++ (ingestEntries meta fp t).take k)) := by
  cases er <;> cases ao <;> simp [ingest_document]

theorem ingest_document_result_witness :
    (ingest_document (.ok ['a']) ⟨1, 2, ['s'], ['t']⟩ ['f'] none []).1 = true :=
  (ingest_document_result (.ok ['a']) ⟨1, 2, ['s'], ['t']⟩ ['f'] none []).1.mpr
    ⟨⟨['a'], rfl⟩, rfl⟩

/-- C8: whenever any exception is raised inside the `try` block of
`RAGSystem.query` (during retrieval or generation), the caller receives
exactly the fixed fallback answer together with an empty sources list —
the function never raises. -/
theorem query_error_fallback (store : List StoreEntry)
    (sim : List Char → StoreEntry → Nat) (e : Unit) (q : List Char) (uid : Nat)
    (sem : Option Nat) (subj : Option (List Char)) :
    query store sim (.error e) q uid sem subj
      = { answer := fallbackAnswer, sources := [] } := rfl

/-- C10: a document whose extracted text contains no whitespace token
produces no chunks, so `ingest_document` performs a batch write of zero
rows and (the write succeeding trivially) reports success while storing
nothing. -/
theorem ingest_empty_document (meta : ChunkMeta) (fp : List Char)
    (store : List StoreEntry) (t : List Char) (ht : pyWords t = []) :
    ingestEntries meta fp t = []
    ∧ ingest_document (.ok t) meta fp none store = (true, store) := by
  have hchunks : split_text t 1000 200 = [] := by
    unfold split_text splitWordChunks
    rw [ht]
    rfl
  constructor
  · unfold ingestEntries
    rw [hchunks]
    rfl
  · simp [ingest_document, ingestEntries, hchunks]

theorem ingest_empty_document_witness :
    ingestEntries ⟨1, 2, ['s'], ['t']⟩ ['f'] [' '] = []
    ∧ ingest_document (.ok [' ']) ⟨1, 2, ['s'], ['t']⟩ ['f'] none [] = (true, []) :=
  ingest_empty_document ⟨1, 2, ['s'], ['t']⟩ ['f'] [] [' '] (by decide)

/-- C1: in any chunk-store state where every stored chunk's metadata user
id equals the owner it was ingested for, `RAGSystem.query` only ever
returns source titles of chunks belonging to the requesting user, for
every question, every similarity ranking, every generation outcome and
every combination of optional semester and subject filters — no other
owner's document titles can appear. -/
theorem query_owner_isolation (store : List StoreEntry) (owner : StoreEntry → Nat)
    (hmeta : ∀ e ∈ store, e.meta.user_id = owner e)
    (sim : List Char → StoreEntry → Nat) (genOutcome : Except Unit (List Char))
    (q : List Char) (uid : Nat) (sem : Option Nat) (subj : Option (List Char)) :
    ∀ t ∈ (query store sim genOutcome q uid sem subj).sources,
      ∃ e ∈ store, owner e = uid ∧ e.meta.title = t := by
  intro t ht
  cases genOutcome with
  | error e => simp [query] at ht
  | ok ans =>
    simp only [query] at ht
    rw [List.mem_dedup] at ht
    obtain ⟨e, he, hte⟩ := List.mem_map.mp ht
    unfold retrieve at he
    have h1 := List.mem_of_mem_take he
    rw [List.mem_insertionSort] at h1
    rw [List.mem_filter] at h1
    obtain ⟨hes, hef⟩ := h1
    have huid : e.meta.user_id = uid := by
      simp only [matchesFilter, buildFilter, Bool.and_eq_true,
        decide_eq_true_eq] at hef
      exact hef.1.1
    exact ⟨e, hes, by rw [← hmeta e hes]; exact huid, hte⟩

theorem query_owner_isolation_witness :
    ∃ e ∈ [(⟨['i'], ['x'], ⟨1, 2, ['s'], ['T']⟩⟩ : StoreEntry)],
      (fun _ => 1 : StoreEntry → Nat) e = 1 ∧ e.meta.title = ['T'] :=
  query_owner_isolation [⟨['i'], ['x'], ⟨1, 2, ['s'], ['T']⟩⟩] (fun _ => 1)
    (by decide) (fun _ _ => 0) (.ok ['a']) [] 1 none none ['T'] (by decide)

theorem query_filter_truthiness_witness :
    (buildFilter 1 (some 0) (some [])).user_id = 1 :=
  (query_filter_truthiness 1 (some 0) (some [])).1

theorem ingest_chunk_ids_witness :
    ((ingestEntries ⟨1, 2, ['s'], ['t']⟩ ['f'] ['a']).map (fun e => e.id)).Nodup :=
  (ingest_chunk_ids ⟨1, 2, ['s'], ['t']⟩ ['f'] ['a']).2.1

theorem query_error_fallback_witness :
    query [] (fun _ _ => 0) (.error ()) [] 1 none none
      = { answer := fallbackAnswer, sources := [] } :=
  query_error_fallback [] (fun _ _ => 0) () [] 1 none none

end StudyPal
